import Mathlib

/-
Verification of the commoncode path-normalization core and two utility
functions (text.toascii, fileutils.splitext).

The paths module itself (resolve, safe_path, portable_filename,
common_path_prefix, common_path_suffix) is referenced by the test suite but
its source file is not present; its operations are modelled from the spec,
as marked in each doc comment.  Strings are embedded as Lean `String`
values, with the work done on their underlying `List Char`.
-/

/-- Modelled from the spec (resolve, step 1): replace all backslash
separators with forward slashes, treating the string as potentially
Windows-styled. -/
def toPosix (l : List Char) : List Char :=
  l.map (fun c => if c = '\\' then '/' else c)

/-- Helper for splitting: prepend a character to the first segment of a
segment list (used when the current character is not a separator). -/
def consHead (c : Char) : List (List Char) → List (List Char)
  | [] => [[c]]
  | s :: rest => (c :: s) :: rest

/-- Modelled from the spec (resolve, step 2): split a character list into
segments on the `/` separator.  Adjacent separators yield empty segments,
which are dropped later. -/
def splitSlash : List Char → List (List Char)
  | [] => [[]]
  | c :: cs => if c = '/' then [] :: splitSlash cs else consHead c (splitSlash cs)

/-- Modelled from the spec (resolve, steps 1-3): the segments of a path
after separator normalization, with empty and `.` segments dropped. -/
def segOf (l : List Char) : List (List Char) :=
  (splitSlash (toPosix l)).filter (fun s => decide (s ≠ [] ∧ s ≠ ['.']))

/-- The literal `dotdot` placeholder segment pushed for a `..` that cannot
be resolved to a real parent. -/
def ddSeg : List Char := ['d', 'o', 't', 'd', 'o', 't']

/-- The `..` parent-reference segment. -/
def dotdotRef : List Char := ['.', '.']

/-- Modelled from the spec (resolve, step 4, `..` case): pop the last real
segment when there is one; when there is no real parent to remove (the
stack is empty or its top is already a `dotdot` placeholder, hence the
whole stack is placeholders), push a literal `dotdot` placeholder instead.
The spec's worked example `resolve("./includes/./../../../../w") =
"dotdot/dotdot/dotdot/w"` forces placeholders not to be popped. -/
def ddStep (stack : List (List Char)) : List (List Char) :=
  match stack with
  | [] => [ddSeg]
  | top :: rest => if top = ddSeg then ddSeg :: top :: rest else rest

/-- Modelled from the spec (resolve, step 4): walk the segments left to
right maintaining an output stack (held in reverse: the head is the most
recently pushed segment). -/
def resolveLoop : List (List Char) → List (List Char) → List (List Char)
  | stack, [] => stack
  | stack, seg :: rest =>
    if seg = dotdotRef then resolveLoop (ddStep stack) rest
    else resolveLoop (seg :: stack) rest

/-- Modelled from the spec (resolve, step 5): join segments with `/`. -/
def joinSlash : List (List Char) → List Char
  | [] => []
  | [s] => s
  | s :: t :: rest => s ++ '/' :: joinSlash (t :: rest)

/-- Modelled from the spec: the full resolve pipeline on a character
list.  An all-consumed path returns `.`. -/
def resolveL (l : List Char) : List Char :=
  let r := resolveLoop [] (segOf l)
  if r = [] then ['.'] else joinSlash r.reverse

/-- Modelled from the spec: `resolve(path)` returns a normalized relative
POSIX path. -/
def resolve (p : String) : String :=
  ⟨resolveL p.data⟩

/-- ASCII uppercase or lowercase letter. -/
def isAsciiLetter (c : Char) : Bool :=
  (65 ≤ c.toNat && c.toNat ≤ 90) || (97 ≤ c.toNat && c.toNat ≤ 122)

/-- ASCII decimal digit. -/
def isAsciiDigit (c : Char) : Bool :=
  48 ≤ c.toNat && c.toNat ≤ 57

/-- ASCII alphanumeric character. -/
def isAlnum (c : Char) : Bool :=
  isAsciiLetter c || isAsciiDigit c

/-- Modelled from the spec: the set of punctuation characters preserved
as-is by sanitization in the default (Windows-portable) mode.  The spec
does not enumerate the set; it is modelled with the members pinned down by
the spec's examples (periods, parentheses, hyphens and underscores are
preserved; colon, backslash, slash and space are not). -/
def legal_punctuation : List Char := ['.', '_', '-', '(', ')']

/-- Modelled from the spec: the broader set of punctuation characters
preserved as-is in posix_only mode; per the spec's examples it
additionally preserves characters that are illegal on Windows but legal on
POSIX, such as the colon. -/
def posix_legal_punctuation : List Char := ['.', '_', '-', '(', ')', ':']

/-- Modelled from the spec (portable_filename / safe_path character rule):
a space becomes `_` unless spaces are preserved; alphanumerics and the
allowed punctuation set (chosen by posix_only) are kept; every other
character becomes `_`. -/
def pfChar (preserve_spaces posix_only : Bool) (c : Char) : Char :=
  if c = ' ' then (if preserve_spaces then ' ' else '_')
  else if isAlnum c then c
  else if c ∈ (if posix_only then posix_legal_punctuation else legal_punctuation) then c
  else '_'

/-- Modelled from the spec: the reserved Windows device names.  The spec
lists CON, PRN, AUX, NUL, COM1-COM9 and LPT1-LPT9. -/
def ILLEGAL_WINDOWS_NAMES : List String :=
  ["CON", "PRN", "AUX", "NUL",
   "COM1", "COM2", "COM3", "COM4", "COM5", "COM6", "COM7", "COM8", "COM9",
   "LPT1", "LPT2", "LPT3", "LPT4", "LPT5", "LPT6", "LPT7", "LPT8", "LPT9"]

/-- Lower-case an ASCII letter, leaving other characters unchanged. -/
def lowerChar (c : Char) : Char :=
  if 65 ≤ c.toNat && c.toNat ≤ 90 then Char.ofNat (c.toNat + 32) else c

/-- Lower-case a character list (ASCII case folding). -/
def lowerL (l : List Char) : List Char := l.map lowerChar

/-- Modelled from the spec: case-insensitive membership in
ILLEGAL_WINDOWS_NAMES. -/
def isWindowsReserved (l : List Char) : Bool :=
  ILLEGAL_WINDOWS_NAMES.any (fun r => lowerL l == lowerL r.data)

/-- Modelled from the spec: `portable_filename(name, preserve_spaces,
posix_only)` treats the whole input as a single segment, maps every
character through the sanitization rule, and when the result matches a
reserved Windows device name case-insensitively and posix_only is false,
appends a trailing `_`.  Transliteration of non-ASCII input (an external
library concern the spec leaves open) is outside the model; the claims'
inputs are ASCII. -/
def portable_filename (name : String) (preserve_spaces posix_only : Bool) : String :=
  let s := name.data.map (pfChar preserve_spaces posix_only)
  if posix_only then ⟨s⟩
  else if isWindowsReserved s then ⟨s ++ ['_']⟩ else ⟨s⟩

/-- Modelled from the spec: a two-character drive-letter segment such as
`C:`. -/
def isDriveSeg : List Char → Bool
  | [c, k] => isAsciiLetter c && k == ':'
  | _ => false

/-- Modelled from the spec (safe_path segment rule): a drive-letter
segment `C:` becomes `C` (outside posix_only mode); every other segment is
sanitized character by character, with spaces preserved exactly in
posix_only mode. -/
def spSeg (posix_only : Bool) (seg : List Char) : List Char :=
  if !posix_only && isDriveSeg seg then seg.take 1
  else seg.map (pfChar posix_only posix_only)

/-- Modelled from the spec: `safe_path(path, posix_only)` builds on
resolve and additionally sanitizes each segment. -/
def safe_path (p : String) (posix_only : Bool) : String :=
  let r := resolveLoop [] (segOf p.data)
  if r = [] then "." else ⟨joinSlash (r.reverse.map (spSeg posix_only))⟩

/-- Modelled from the spec (common_path_prefix / common_path_suffix):
the segments of a path after separator normalization and trimming, i.e.
split on `/` with empty segments dropped. -/
def cpSegs (p : String) : List (List Char) :=
  (splitSlash (toPosix p.data)).filter (fun s => decide (s ≠ []))

/-- Longest common leading run of whole segments: two segments count as
common only when they are equal as whole strings. -/
def commonRun : List (List Char) → List (List Char) → List (List Char)
  | a :: as, b :: bs => if a = b then a :: commonRun as bs else []
  | _, _ => []

/-- Modelled from the spec: `common_path_prefix(p1, p2)` returns the
joined longest common leading run of whole segments and its length, or
`(none, 0)` when there is none. -/
def common_path_prefix (p1 p2 : String) : Option String × Nat :=
  let c := commonRun (cpSegs p1) (cpSegs p2)
  if c = [] then (none, 0) else (some ⟨joinSlash c⟩, c.length)

/-- Modelled from the spec: `common_path_suffix(p1, p2)` is the prefix
operation anchored at the end of each path. -/
def common_path_suffix (p1 p2 : String) : Option String × Nat :=
  let c := commonRun (cpSegs p1).reverse (cpSegs p2).reverse
  if c = [] then (none, 0) else (some ⟨joinSlash c.reverse⟩, c.length)

/-- Embedding of the replacement `converted.replace("[?]", "_")` in
commoncode.text.toascii: replace each non-overlapping occurrence of the
three characters `[?]` with `_`, scanning left to right. -/
def replaceUnk : List Char → List Char
  | '[' :: '?' :: ']' :: rest => '_' :: replaceUnk rest
  | c :: rest => c :: replaceUnk rest
  | [] => []

/-- Embedding of `converted.encode("ascii", "ignore").decode("ascii")`:
keep only the characters whose code point is below 128. -/
def asciiFilter (l : List Char) : List Char :=
  l.filter (fun c => decide (c.toNat < 128))

/-- Embedding of commoncode.text.toascii on the path where it returns
(bytes input decoded to a string).  The conversion step is the external
library call - text_unidecode.unidecode when translit is true, else
unicodedata.normalize NFKD - and is taken as a parameter `conv`; the
repository code then replaces `[?]` with `_` and encodes to ASCII ignoring
unencodable characters. -/
def toascii (conv : String → String) (s : String) : String :=
  ⟨asciiFilter (replaceUnk (conv s).data)⟩

/-- Embedding of fileutils.as_posixpath via toPosix, and of the trailing
`/` strip in fileutils.resource_name: drop trailing slashes. -/
def dropTrailingSlashes (l : List Char) : List Char :=
  (l.reverse.dropWhile (fun c => c = '/')).reverse

/-- Embedding of the right half of posixpath.split: the characters after
the last `/`. -/
def afterLastSlash (l : List Char) : List Char :=
  (l.reverse.takeWhile (fun c => c ≠ '/')).reverse

/-- Embedding of fileutils.resource_name on a character list: normalize
separators, strip trailing slashes, and keep the last path segment. -/
def rnL (l : List Char) : List Char :=
  afterLastSlash (dropTrailingSlashes (toPosix l))

/-- Embedding of fileutils.resource_name. -/
def resource_name (path : String) : String :=
  ⟨rnL path.data⟩

/-- Embedding of posixpath.splitext on a name without separators: split
at the last dot, unless every character before that dot is itself a dot
(leading dots of a hidden name do not start an extension). -/
def pySplitext (name : List Char) : List Char × List Char :=
  let rev := name.reverse
  let after := rev.takeWhile (fun c => c ≠ '.')
  if after.length = rev.length then (name, [])
  else
    let base := (rev.drop (after.length + 1)).reverse
    if base.any (fun c => c ≠ '.') then (base, '.' :: after.reverse)
    else (name, [])

/-- Embedding of fileutils.splitext on a character list: empty paths give
two empty strings; a path ending in a separator is a directory and has no
extension; a hidden name (leading dot, no other dot) is all extension;
otherwise posixpath.splitext of the final name. -/
def splitextL (l : List Char) : List Char × List Char :=
  if l = [] then ([], [])
  else
    let p := toPosix l
    let name := rnL l
    if p.getLast? = some '/' then (name, [])
    else if name.head? = some '.' ∧ '.' ∉ name.tail then ([], name)
    else pySplitext name

/-- Embedding of fileutils.splitext. -/
def splitext (path : String) : String × String :=
  let r := splitextL path.data
  (⟨r.1⟩, ⟨r.2⟩)

/-- A segment that can appear in a resolved output: non-empty, not `.`,
not `..`, and free of both separators. -/
def goodSeg (s : List Char) : Prop :=
  s ≠ [] ∧ s ≠ ['.'] ∧ s ≠ dotdotRef ∧ '/' ∉ s ∧ '\\' ∉ s

theorem ddSeg_good : goodSeg ddSeg := by
  refine ⟨by decide, by decide, by decide, by decide, by decide⟩

theorem splitSlash_ne_nil (l : List Char) : splitSlash l ≠ [] := by
  induction l with
  | nil => simp [splitSlash]
  | cons c cs ih =>
    simp only [splitSlash]
    split
    · simp
    · cases h : splitSlash cs with
      | nil => exact absurd h ih
      | cons s rest => simp [consHead]

theorem mem_splitSlash_no_slash {l s : List Char} (hs : s ∈ splitSlash l) : '/' ∉ s := by
  induction l generalizing s with
  | nil =>
    simp only [splitSlash, List.mem_singleton] at hs
    subst hs; simp
  | cons c cs ih =>
    simp only [splitSlash] at hs
    by_cases hc : c = '/'
    · rw [if_pos hc] at hs
      rcases List.mem_cons.mp hs with h | h
      · subst h; simp
      · exact ih h
    · rw [if_neg hc] at hs
      cases h : splitSlash cs with
      | nil => exact absurd h (splitSlash_ne_nil cs)
      | cons t rest =>
        rw [h] at hs
        simp only [consHead] at hs
        rcases List.mem_cons.mp hs with h2 | h2
        · subst h2
          intro hmem
          rcases List.mem_cons.mp hmem with h3 | h3
          · exact hc h3.symm
          · exact ih (h ▸ List.mem_cons_self t rest) h3
        · exact ih (h ▸ List.mem_cons_of_mem t h2)

theorem mem_splitSlash_subset {l s : List Char} {c : Char}
    (hs : s ∈ splitSlash l) (hc : c ∈ s) : c ∈ l := by
  induction l generalizing s with
  | nil =>
    simp only [splitSlash, List.mem_singleton] at hs
    subst hs; simp at hc
  | cons a cs ih =>
    simp only [splitSlash] at hs
    by_cases ha : a = '/'
    · rw [if_pos ha] at hs
      rcases List.mem_cons.mp hs with h | h
      · subst h; simp at hc
      · exact List.mem_cons_of_mem a (ih h hc)
    · rw [if_neg ha] at hs
      cases h : splitSlash cs with
      | nil => exact absurd h (splitSlash_ne_nil cs)
      | cons t rest =>
        rw [h] at hs
        simp only [consHead] at hs
        rcases List.mem_cons.mp hs with h2 | h2
        · subst h2
          rcases List.mem_cons.mp hc with h3 | h3
          · exact h3 ▸ List.mem_cons_self a cs
          · exact List.mem_cons_of_mem a (ih (h ▸ List.mem_cons_self t rest) h3)
        · exact List.mem_cons_of_mem a (ih (h ▸ List.mem_cons_of_mem t h2) hc)

theorem toPosix_no_backslash (l : List Char) : '\\' ∉ toPosix l := by
  intro h
  rw [toPosix, List.mem_map] at h
  obtain ⟨c, -, hc⟩ := h
  by_cases h' : c = '\\'
  · rw [if_pos h'] at hc
    exact absurd hc (by decide)
  · rw [if_neg h'] at hc
    exact h' hc

theorem toPosix_id {l : List Char} (h : '\\' ∉ l) : toPosix l = l := by
  induction l with
  | nil => rfl
  | cons c cs ih =>
    have hc : c ≠ '\\' := fun hc => h (hc ▸ List.mem_cons_self c cs)
    have hcs : '\\' ∉ cs := fun hm => h (List.mem_cons_of_mem c hm)
    simp only [toPosix, List.map_cons]
    rw [if_neg (fun hc2 => hc hc2)]
    exact congrArg (c :: ·) (ih hcs)

theorem segOf_good {l s : List Char} (hs : s ∈ segOf l) :
    s ≠ [] ∧ s ≠ ['.'] ∧ '/' ∉ s ∧ '\\' ∉ s := by
  rw [segOf, List.mem_filter] at hs
  obtain ⟨hmem, hpred⟩ := hs
  obtain ⟨h1, h2⟩ := of_decide_eq_true hpred
  refine ⟨h1, h2, mem_splitSlash_no_slash hmem, fun hb => ?_⟩
  exact toPosix_no_backslash l (mem_splitSlash_subset hmem hb)

theorem resolveLoop_no_dd :
    ∀ (segs stack : List (List Char)), (∀ s ∈ segs, s ≠ dotdotRef) →
      resolveLoop stack segs = segs.reverse ++ stack := by
  intro segs
  induction segs with
  | nil => intro stack _; simp [resolveLoop]
  | cons seg rest ih =>
    intro stack h
    have hseg : seg ≠ dotdotRef := h seg (List.mem_cons_self _ _)
    simp only [resolveLoop]
    rw [if_neg hseg, ih (seg :: stack) (fun s hs => h s (List.mem_cons_of_mem _ hs))]
    simp

theorem resolveLoop_good :
    ∀ (segs stack : List (List Char)), (∀ s ∈ stack, goodSeg s) →
      (∀ s ∈ segs, s ≠ [] ∧ s ≠ ['.'] ∧ '/' ∉ s ∧ '\\' ∉ s) →
      ∀ s ∈ resolveLoop stack segs, goodSeg s := by
  intro segs
  induction segs with
  | nil =>
    intro stack hstack _ s hs
    simp only [resolveLoop] at hs
    exact hstack s hs
  | cons seg rest ih =>
    intro stack hstack hsegs
    have hrest : ∀ s ∈ rest, s ≠ [] ∧ s ≠ ['.'] ∧ '/' ∉ s ∧ '\\' ∉ s :=
      fun s hs => hsegs s (List.mem_cons_of_mem _ hs)
    simp only [resolveLoop]
    split
    · apply ih (ddStep stack) ?_ hrest
      intro s hs
      cases stack with
      | nil =>
        simp only [ddStep] at hs
        rcases List.mem_singleton.mp hs with h
        exact h ▸ ddSeg_good
      | cons top rest2 =>
        simp only [ddStep] at hs
        by_cases htop : top = ddSeg
        · rw [if_pos htop] at hs
          rcases List.mem_cons.mp hs with h | h
          · exact h ▸ ddSeg_good
          · exact hstack s h
        · rw [if_neg htop] at hs
          exact hstack s (List.mem_cons_of_mem _ hs)
    · next hne =>
      apply ih (seg :: stack) ?_ hrest
      intro s hs
      rcases List.mem_cons.mp hs with h | h
      · obtain ⟨h1, h2, h3, h4⟩ := hsegs seg (List.mem_cons_self _ _)
        exact h ▸ ⟨h1, h2, hne, h3, h4⟩
      · exact hstack s h

theorem splitSlash_of_no_slash {s : List Char} (h : '/' ∉ s) : splitSlash s = [s] := by
  induction s with
  | nil => rfl
  | cons c cs ih =>
    have hc : c ≠ '/' := fun hc => h (hc ▸ List.mem_cons_self c cs)
    have hcs : '/' ∉ cs := fun hm => h (List.mem_cons_of_mem c hm)
    simp only [splitSlash]
    rw [if_neg hc, ih hcs]
    rfl

theorem splitSlash_append {s : List Char} (h : '/' ∉ s) (l : List Char) :
    splitSlash (s ++ '/' :: l) = s :: splitSlash l := by
  induction s with
  | nil => simp [splitSlash]
  | cons c cs ih =>
    have hc : c ≠ '/' := fun hc => h (hc ▸ List.mem_cons_self c cs)
    have hcs : '/' ∉ cs := fun hm => h (List.mem_cons_of_mem c hm)
    simp only [List.cons_append, splitSlash]
    rw [if_neg hc]
    show consHead c (splitSlash (cs ++ '/' :: l)) = (c :: cs) :: splitSlash l
    rw [ih hcs]
    rfl

theorem splitSlash_joinSlash :
    ∀ segs : List (List Char), segs ≠ [] → (∀ s ∈ segs, s ≠ [] ∧ '/' ∉ s) →
      splitSlash (joinSlash segs) = segs := by
  intro segs
  induction segs with
  | nil => intro h _; exact absurd rfl h
  | cons s rest ih =>
    intro _ hall
    cases rest with
    | nil =>
      simp only [joinSlash]
      exact splitSlash_of_no_slash (hall s (List.mem_cons_self _ _)).2
    | cons t rest2 =>
      simp only [joinSlash]
      rw [splitSlash_append (hall s (List.mem_cons_self _ _)).2]
      rw [ih (by simp) (fun u hu => hall u (List.mem_cons_of_mem _ hu))]

theorem mem_joinSlash :
    ∀ (segs : List (List Char)) (c : Char), c ∈ joinSlash segs →
      c = '/' ∨ ∃ s, s ∈ segs ∧ c ∈ s := by
  intro segs
  induction segs with
  | nil => intro c hc; simp [joinSlash] at hc
  | cons s rest ih =>
    intro c hc
    cases rest with
    | nil =>
      simp only [joinSlash] at hc
      exact Or.inr ⟨s, List.mem_cons_self _ _, hc⟩
    | cons t rest2 =>
      simp only [joinSlash] at hc
      rcases List.mem_append.mp hc with h | h
      · exact Or.inr ⟨s, List.mem_cons_self _ _, h⟩
      · rcases List.mem_cons.mp h with h2 | h2
        · exact Or.inl h2
        · rcases ih c h2 with h3 | ⟨u, hu, hcu⟩
          · exact Or.inl h3
          · exact Or.inr ⟨u, List.mem_cons_of_mem _ hu, hcu⟩

theorem joinSlash_ne_nil :
    ∀ segs : List (List Char), segs ≠ [] → (∀ s ∈ segs, s ≠ []) →
      joinSlash segs ≠ [] := by
  intro segs
  cases segs with
  | nil => intro h _; exact absurd rfl h
  | cons s rest =>
    intro _ hall
    cases rest with
    | nil => exact hall s (List.mem_cons_self _ _)
    | cons t rest2 =>
      simp only [joinSlash]
      simp

theorem joinSlash_head :
    ∀ segs : List (List Char), (∀ s ∈ segs, s ≠ [] ∧ '/' ∉ s) →
      (joinSlash segs).head? ≠ some '/' := by
  intro segs hall
  cases segs with
  | nil => simp [joinSlash]
  | cons s rest =>
    obtain ⟨h1, h2⟩ := hall s (List.mem_cons_self _ _)
    cases s with
    | nil => exact absurd rfl h1
    | cons c cs =>
      have hc : c ≠ '/' := fun hc => h2 (hc ▸ List.mem_cons_self c cs)
      cases rest with
      | nil =>
        simp only [joinSlash, List.head?]
        intro h
        exact hc (Option.some.inj h)
      | cons t rest2 =>
        simp only [joinSlash, List.cons_append, List.head?]
        intro h
        exact hc (Option.some.inj h)

theorem joinSlash_last :
    ∀ segs : List (List Char), (∀ s ∈ segs, s ≠ [] ∧ '/' ∉ s) →
      (joinSlash segs).getLast? ≠ some '/' := by
  intro segs
  induction segs with
  | nil => intro _; simp [joinSlash]
  | cons s rest ih =>
    intro hall
    cases rest with
    | nil =>
      obtain ⟨h1, h2⟩ := hall s (List.mem_cons_self _ _)
      simp only [joinSlash]
      intro h
      obtain ⟨hne, hx⟩ := List.mem_getLast?_eq_getLast (Option.mem_def.mpr h)
      exact h2 (hx ▸ List.getLast_mem hne)
    | cons t rest2 =>
      simp only [joinSlash]
      have hall2 : ∀ u ∈ t :: rest2, u ≠ [] ∧ '/' ∉ u :=
        fun u hu => hall u (List.mem_cons_of_mem _ hu)
      have hne : joinSlash (t :: rest2) ≠ [] :=
        joinSlash_ne_nil (t :: rest2) (by simp) (fun u hu => (hall2 u hu).1)
      rw [List.getLast?_append_cons]
      cases hj : joinSlash (t :: rest2) with
      | nil => exact absurd hj hne
      | cons u us =>
        rw [List.getLast?_cons_cons]
        have := ih hall2
        rw [hj] at this
        exact this

theorem joinSlash_no_backslash :
    ∀ segs : List (List Char), (∀ s ∈ segs, '\\' ∉ s) → '\\' ∉ joinSlash segs := by
  intro segs hall hmem
  rcases mem_joinSlash segs '\\' hmem with h | ⟨s, hs, hcs⟩
  · exact absurd h (by decide)
  · exact hall s hs hcs

theorem segOf_joinSlash {segs : List (List Char)} (hne : segs ≠ [])
    (hgood : ∀ s ∈ segs, goodSeg s) : segOf (joinSlash segs) = segs := by
  have hnb : '\\' ∉ joinSlash segs :=
    joinSlash_no_backslash segs (fun s hs => (hgood s hs).2.2.2.2)
  have hsf : ∀ s ∈ segs, s ≠ [] ∧ '/' ∉ s :=
    fun s hs => ⟨(hgood s hs).1, (hgood s hs).2.2.2.1⟩
  rw [segOf, toPosix_id hnb, splitSlash_joinSlash segs hne hsf]
  rw [List.filter_eq_self]
  intro s hs
  exact decide_eq_true ⟨(hgood s hs).1, (hgood s hs).2.1⟩

theorem resolveL_good {l : List Char} :
    ∀ s ∈ resolveLoop [] (segOf l), goodSeg s := by
  intro s hs
  exact resolveLoop_good (segOf l) [] (by simp) (fun t ht => segOf_good ht) s hs

theorem resolveL_idem (l : List Char) : resolveL (resolveL l) = resolveL l := by
  by_cases hr : resolveLoop [] (segOf l) = []
  · have h1 : resolveL l = ['.'] := by simp [resolveL, hr]
    rw [h1]
    decide
  · have hgood : ∀ s ∈ (resolveLoop [] (segOf l)).reverse, goodSeg s := by
      intro s hs
      exact resolveL_good s (List.mem_reverse.mp hs)
    have hrev : (resolveLoop [] (segOf l)).reverse ≠ [] := by
      simpa using hr
    have h1 : resolveL l = joinSlash (resolveLoop [] (segOf l)).reverse := by
      simp [resolveL, hr]
    have h2 : segOf (joinSlash (resolveLoop [] (segOf l)).reverse) =
        (resolveLoop [] (segOf l)).reverse := segOf_joinSlash hrev hgood
    have h3 : resolveLoop [] (resolveLoop [] (segOf l)).reverse =
        resolveLoop [] (segOf l) := by
      rw [resolveLoop_no_dd _ [] (fun s hs => (hgood s hs).2.2.1)]
      simp
    rw [h1, resolveL, h2, h3, if_neg hr]

theorem commonRun_append :
    ∀ as bs : List (List Char), ∃ ta tb, commonRun as bs ++ ta = as ∧ commonRun as bs ++ tb = bs := by
  intro as
  induction as with
  | nil => intro bs; exact ⟨[], bs, rfl, rfl⟩
  | cons a as' ih =>
    intro bs
    cases bs with
    | nil => exact ⟨a :: as', [], rfl, rfl⟩
    | cons b bs' =>
      by_cases hab : a = b
      · subst hab
        obtain ⟨ta, tb, h1, h2⟩ := ih bs'
        refine ⟨ta, tb, ?_, ?_⟩
        · simp only [commonRun, if_true, List.cons_append]
          rw [h1]
        · simp only [commonRun, if_true, List.cons_append]
          rw [h2]
      · exact ⟨a :: as', b :: bs', by simp [commonRun, hab], by simp [commonRun, hab]⟩

/-- Claim C1: resolve walks the segments left to right with an output
stack.  A `..` segment pops the last real segment when there is one (the
stack top is not a placeholder, and placeholders only ever sit below real
segments); when there is no real parent to remove - in particular when
the stack is empty - it pushes a literal `dotdot` placeholder instead.
When every segment has been consumed, resolve returns `.`; and the spec's
worked example evaluates as stated. -/
theorem resolve_stack_spec :
    (∀ (top : List Char) (stack rest : List (List Char)), top ≠ ddSeg →
        resolveLoop (top :: stack) (dotdotRef :: rest) = resolveLoop stack rest) ∧
    (∀ rest : List (List Char),
        resolveLoop [] (dotdotRef :: rest) = resolveLoop [ddSeg] rest) ∧
    (∀ p : String, resolveLoop [] (segOf p.data) = [] → resolve p = ".") ∧
    resolve "a/.." = "." ∧
    resolve "includes/../" = "." ∧
    resolve "./includes/./../../../../webform.components.inc/." =
      "dotdot/dotdot/dotdot/webform.components.inc" := by
  refine ⟨?_, ?_, ?_, by decide, by decide, by decide⟩
  · intro top stack rest h
    have hd : ddStep (top :: stack) = stack := by
      simp only [ddStep]
      rw [if_neg h]
    simp only [resolveLoop, if_true]
    rw [hd]
  · intro rest
    simp [resolveLoop, ddStep]
  · intro p h
    have hL : resolveL p.data = ['.'] := by simp [resolveL, h]
    exact String.ext hL

/-- Witness for C1: popping a concrete real segment on `..`. -/
theorem resolve_stack_spec_w :
    resolveLoop [['a']] (dotdotRef :: []) = resolveLoop [] [] :=
  resolve_stack_spec.1 ['a'] [] [] (by decide)

/-- Claim C2: resolve is idempotent - applying it to its own output
returns that output unchanged. -/
theorem resolve_idempotent : ∀ p : String, resolve (resolve p) = resolve p := by
  intro p
  exact congrArg String.mk (resolveL_idem p.data)

/-- Counterexample for C3 as stated: a fully collapsed path resolves to
the string `.`, whose single segment is a `.` segment, so resolve output
is not entirely free of `.` segments. -/
theorem resolve_dot_segment_cex :
    resolve "a/.." = "." ∧ ['.'] ∈ splitSlash (resolve "a/..").data := by decide

/-- Claim C3 (amended): the output of resolve is non-empty, never starts
or ends with `/`, never contains a backslash, and either is exactly the
degenerate `.` of a fully collapsed path or contains no empty, `.` or raw
`..` segment. -/
theorem resolve_output_shape : ∀ p : String,
    (resolve p).data ≠ [] ∧
    (resolve p).data.head? ≠ some '/' ∧
    (resolve p).data.getLast? ≠ some '/' ∧
    '\\' ∉ (resolve p).data ∧
    (resolve p = "." ∨
      ∀ s ∈ splitSlash (resolve p).data, s ≠ [] ∧ s ≠ ['.'] ∧ s ≠ dotdotRef) := by
  intro p
  by_cases hr : resolveLoop [] (segOf p.data) = []
  · have h1 : (resolve p).data = ['.'] := by simp [resolve, resolveL, hr]
    rw [h1]
    exact ⟨by decide, by decide, by decide, by decide, Or.inl (String.ext h1)⟩
  · have hgoodR : ∀ s ∈ (resolveLoop [] (segOf p.data)).reverse, goodSeg s := by
      intro s hs
      exact resolveL_good s (List.mem_reverse.mp hs)
    have hRne : (resolveLoop [] (segOf p.data)).reverse ≠ [] := by simpa using hr
    have hsf : ∀ s ∈ (resolveLoop [] (segOf p.data)).reverse, s ≠ [] ∧ '/' ∉ s :=
      fun s hs => ⟨(hgoodR s hs).1, (hgoodR s hs).2.2.2.1⟩
    have hdata : (resolve p).data = joinSlash (resolveLoop [] (segOf p.data)).reverse := by
      simp [resolve, resolveL, hr]
    rw [hdata]
    refine ⟨?_, ?_, ?_, ?_, Or.inr ?_⟩
    · exact joinSlash_ne_nil _ hRne (fun s hs => (hgoodR s hs).1)
    · exact joinSlash_head _ hsf
    · exact joinSlash_last _ hsf
    · exact joinSlash_no_backslash _ (fun s hs => (hgoodR s hs).2.2.2.2)
    · rw [splitSlash_joinSlash _ hRne hsf]
      intro s hs
      exact ⟨(hgoodR s hs).1, (hgoodR s hs).2.1, (hgoodR s hs).2.2.1⟩

/-- Witness for C3 (amended) at a concrete input. -/
theorem resolve_output_shape_w :
    (resolve "a/b").data ≠ [] ∧
    (resolve "a/b").data.head? ≠ some '/' ∧
    (resolve "a/b").data.getLast? ≠ some '/' ∧
    '\\' ∉ (resolve "a/b").data ∧
    (resolve "a/b" = "." ∨
      ∀ s ∈ splitSlash (resolve "a/b").data, s ≠ [] ∧ s ≠ ['.'] ∧ s ≠ dotdotRef) :=
  resolve_output_shape "a/b"

/-- Claim C4: every operation is total in the embedding, and degenerate
inputs map to the defined degenerate outputs: `.` for fully collapsed
relative paths and `(none, 0)` for no-common-segment cases, including
empty-string and root-only inputs. -/
theorem paths_total_degenerate :
    resolve "" = "." ∧ resolve "/" = "." ∧ resolve "." = "." ∧
    safe_path "" false = "." ∧ safe_path "" true = "." ∧
    portable_filename "" false false = "" ∧
    common_path_prefix "" "" = (none, 0) ∧
    common_path_prefix "/" "/" = (none, 0) ∧
    common_path_suffix "" "" = (none, 0) ∧
    common_path_suffix "" "/" = (none, 0) ∧
    common_path_suffix "/" "" = (none, 0) ∧
    common_path_suffix "/" "/" = (none, 0) := by decide

/-- Claim C5: a name sanitizing to a reserved Windows device name
(case-insensitively) gets a trailing `_` appended when posix_only is
false; with posix_only true a reserved name is returned unchanged. -/
theorem portable_filename_reserved :
    (∀ name : String,
        isWindowsReserved (name.data.map (pfChar false false)) = true →
        portable_filename name false false = ⟨name.data.map (pfChar false false) ++ ['_']⟩) ∧
    (∀ name ∈ ILLEGAL_WINDOWS_NAMES,
        portable_filename name false false = name ++ "_" ∧
        portable_filename name false true = name) := by
  constructor
  · intro name h
    simp [ portable_filename, h]
  · decide

/-- Witness for C5 at the concrete reserved name `con`. -/
theorem portable_filename_reserved_w :
    portable_filename "con" false false = ⟨"con".data.map (pfChar false false) ++ ['_']⟩ :=
  portable_filename_reserved.1 "con" (by decide)

/-- Claim C6: safe_path with posix_only false replaces the Windows-illegal
but POSIX-legal colon with `_`, while posix_only true leaves it (and the
whole example path) untouched. -/
theorem safe_path_posix_only_colon :
    safe_path "var/lib/dpkg/info/libgsm1:amd64.list" false =
      "var/lib/dpkg/info/libgsm1_amd64.list" ∧
    safe_path "var/lib/dpkg/info/libgsm1:amd64.list" true =
      "var/lib/dpkg/info/libgsm1:amd64.list" ∧
    pfChar false false ':' = '_' ∧
    pfChar true true ':' = ':' := by decide

/-- Claim C7: segments count as common only under whole-segment equality:
the common run is a leading run of both inputs, a first-segment mismatch
(even of similar text) yields the empty run, and the spec's
substring-overlap example evaluates as stated. -/
theorem common_path_whole_segments :
    (∀ as bs : List (List Char),
        ∃ ta tb, commonRun as bs ++ ta = as ∧ commonRun as bs ++ tb = bs) ∧
    (∀ (a b : List Char) (as bs : List (List Char)), a ≠ b →
        commonRun (a :: as) (b :: bs) = []) ∧
    common_path_suffix "this/is/aaaa/great/path" "this/is/aaaaa/great/path" =
      (some "great/path", 2) := by
  refine ⟨commonRun_append, ?_, by decide⟩
  intro a b as bs h
  simp [commonRun, h]

/-- Witness for C7: two textually similar but unequal segments share no
common run. -/
theorem common_path_whole_segments_w :
    commonRun ([['a', 'a']]) ([['a', 'a', 'a']]) = [] :=
  common_path_whole_segments.2.1 ['a', 'a'] ['a', 'a', 'a'] [] [] (by decide)

/-- Claim C8: common_path_prefix returns (none, 0) whenever the two paths
share no leading segment - including bare-root inputs - and returns a
single shared leading segment with count 1. -/
theorem common_path_root_cases :
    (∀ p q : String, (cpSegs p).head? ≠ (cpSegs q).head? ∨ cpSegs p = [] →
        common_path_prefix p q = (none, 0)) ∧
    common_path_prefix "/a/b/c" "/" = (none, 0) ∧
    common_path_prefix "/" "/a/b/c" = (none, 0) ∧
    common_path_prefix "/" "/" = (none, 0) ∧
    common_path_prefix "/a" "/a" = (some "a", 1) := by
  refine ⟨?_, by decide, by decide, by decide, by decide⟩
  intro p q h
  have hrun : commonRun (cpSegs p) (cpSegs q) = [] := by
    cases hp : cpSegs p with
    | nil => rfl
    | cons a as =>
      cases hq : cpSegs q with
      | nil => rfl
      | cons b bs =>
        rcases h with h | h
        · rw [hp, hq] at h
          have hab : a ≠ b := fun he => h (by simp [he])
          simp [commonRun, hab]
        · rw [h] at hp
          exact absurd hp.symm (List.cons_ne_nil a as)
  simp [ common_path_prefix, hrun]

/-- Witness for C8: two single-segment paths with different segments. -/
theorem common_path_root_cases_w :
    common_path_prefix "a" "b" = (none, 0) :=
  common_path_root_cases.1 "a" "b" (by decide)

/-- Claim C9: whichever conversion the external transliteration step
performs, every character of a toascii result has a code point below
128. -/
theorem toascii_ascii_only :
    ∀ (conv : String → String) (s : String) (c : Char),
      c ∈ (toascii conv s).data → c.toNat < 128 := by
  intro conv s c hc
  have h : c ∈ asciiFilter (replaceUnk (conv s).data) := hc
  rw [asciiFilter, List.mem_filter] at h
  exact of_decide_eq_true h.2

/-- Witness for C9 at the identity conversion and a concrete string. -/
theorem toascii_ascii_only_w : Char.toNat 'a' < 128 :=
  toascii_ascii_only id "abc" 'a' (by decide)

/-- Counterexample for C10 as stated: the path `.gitignore/` has final
name `.gitignore` (a leading dot and no other dot), yet splitext takes
the trailing-separator directory branch and returns the whole name as the
base with an empty extension. -/
theorem splitext_hidden_cex :
    resource_name ".gitignore/" = ".gitignore" ∧
    (resource_name ".gitignore/").data.head? = some '.' ∧
    '.' ∉ (resource_name ".gitignore/").data.tail ∧
    splitext ".gitignore/" = (".gitignore", "") ∧
    splitext ".gitignore/" ≠ ("", ".gitignore") := by decide

/-- Claim C10 (amended): for every non-empty path that does not end in a
separator and whose final name starts with `.` and contains no other `.`,
splitext returns the empty base name and the entire name as the
extension. -/
theorem splitext_hidden_file :
    ∀ p : String, p ≠ "" → (toPosix p.data).getLast? ≠ some '/' →
      (resource_name p).data.head? = some '.' →
      '.' ∉ (resource_name p).data.tail →
      splitext p = ("", resource_name p) := by
  intro p h0 h1 h2 h3
  have hd : p.data ≠ [] := fun h => h0 (String.ext (by rw [h]))
  have h2' : (rnL p.data).head? = some '.' := h2
  have h3' : '.' ∉ (rnL p.data).tail := h3
  have hsp : splitextL p.data = ([], rnL p.data) := by
    simp only [splitextL, if_neg hd, if_neg h1, if_pos (⟨h2', h3'⟩ : _ ∧ _)]
  simp only [splitext]
  rw [hsp]
  exact Prod.ext (String.ext rfl) (String.ext rfl)

/-- Witness for C10 (amended) at the hidden file `.gitignore`. -/
theorem splitext_hidden_file_w :
    splitext ".gitignore" = ("", resource_name ".gitignore") :=
  splitext_hidden_file ".gitignore" (by decide) (by decide) (by decide) (by decide)
